import Mathlib

/-!
Verification development for the invoice merge planner (`scripts/optimize.py`)
and the batch merge executor (`scripts/batch_merge.py`).

Modelling conventions:
* monetary amounts (Python floats fed through `float(...)`) are modelled as `ℚ`,
  so sums and comparisons are exact;
* Python dicts keyed by `orgId` are modelled by first-appearance key lists plus
  a filter-based lookup (Python dicts preserve insertion order);
* Python's stable `sorted`/`list.sort` is modelled by a stable insertion sort;
* the planner's `while True` loop is modelled with fuel `pool.length + 1`,
  which is enough because every iteration consumes at least one pool index.
-/

namespace JdMerge

/-- One input order record: `orgId`, `orderId`, `ivcAmount`, `canHk`
(the merge-eligibility flag), as consumed by `optimize`. -/
structure Order where
  orgId : Int
  orderId : String
  ivcAmount : ℚ
  canHk : Bool
deriving DecidableEq, Repr, Inhabited

/-- A merged invoice produced by the planner (class `Invoice` in `optimize.py`). -/
structure Invoice where
  org_id : Int
  org_name : String
  order_ids : List String
  amounts : List ℚ
  total : ℚ
deriving DecidableEq, Repr, Inhabited

/-- The full merge plan (class `Plan` in `optimize.py`); `leftover` is the
insertion-ordered dict `orgId -> [orders]`. -/
structure Plan where
  invoices : List Invoice
  leftover : List (Int × List Order)
deriving DecidableEq, Repr, Inhabited

/-! ### Stable insertion sort (model of Python's stable `sorted` / `list.sort`) -/

/-- Insert `x` into `l`, walking past every `y` with `later x y = true`.
With `later x y := key x < key y` this yields a descending stable sort. -/
def insSorted (later : α → α → Bool) (x : α) : List α → List α
  | [] => [x]
  | y :: ys => if later x y then y :: insSorted later x ys else x :: y :: ys

/-- Stable insertion sort: earlier elements are inserted in front of
equal-key elements, reproducing Python's stable sort tie behaviour. -/
def stableSort (later : α → α → Bool) : List α → List α
  | [] => []
  | x :: xs => insSorted later x (stableSort later xs)

/-! ### Combination enumeration (model of `itertools.combinations`)

`combosFrom l k` lists all length-`k` sublists of `l` in the lexicographic
position order that `combinations(range(n), size)` produces; the source then
materialises `[amounts_with_idx[j] for j in combo]`, which is exactly such a
sublist. -/

def combosFrom : List α → ℕ → List (List α)
  | _, 0 => [[]]
  | [], _ + 1 => []
  | x :: xs, k + 1 => ((combosFrom xs k).map (fun c => x :: c)) ++ combosFrom xs (k + 1)

/-! ### `find_best_combo` (from `scripts/optimize.py`)

The running best is `Option (combo, best_sum)`; `none` plays the role of
`best = None, best_sum = float('inf')`. -/

/-- Sum of the amount components of an indexed combination. -/
def sumSnd (l : List (ℕ × ℚ)) : ℚ := (l.map Prod.snd).sum

/-- Test `s < best_sum` (with `best_sum = ∞` when no best exists yet). -/
def ltBestB (s : ℚ) : Option (List (ℕ × ℚ) × ℚ) → Bool
  | none => true
  | some q => decide (s < q.2)

/-- Test `s >= best_sum` (false against the initial infinite `best_sum`). -/
def geBestB (s : ℚ) : Option (List (ℕ × ℚ) × ℚ) → Bool
  | none => false
  | some q => decide (q.2 ≤ s)

/-- Test `best_sum < x` (false when no best exists yet). -/
def bestLtB : Option (List (ℕ × ℚ) × ℚ) → ℚ → Bool
  | none, _ => false
  | some q, x => decide (q.2 < x)

/-- One iteration of the inner `for combo in combinations(...)` loop:
`if s >= target and s < best_sum: best_sum = s; best = combo; found = True`. -/
def comboStep (target : ℚ) (st : Option (List (ℕ × ℚ) × ℚ) × Bool)
    (c : List (ℕ × ℚ)) : Option (List (ℕ × ℚ) × ℚ) × Bool :=
  let s := sumSnd c
  if target ≤ s ∧ ltBestB s st.1 = true then (some (c, s), true) else st

/-- The `for size in range(2, min(max_size + 1, n + 1))` loop of
`find_best_combo`, with both pruning `continue`s and the
`found_at_this_size and best_sum < target * 1.10` break. -/
def searchSizes (awi : List (ℕ × ℚ)) (amounts : List ℚ) (target : ℚ) :
    List ℕ → Option (List (ℕ × ℚ) × ℚ) → Option (List (ℕ × ℚ) × ℚ)
  | [], best => best
  | size :: rest, best =>
    if (amounts.take size).sum < target then
      searchSizes awi amounts target rest best
    else if geBestB ((amounts.drop (amounts.length - size)).sum) best = true then
      searchSizes awi amounts target rest best
    else
      let res := (combosFrom awi size).foldl (comboStep target) (best, false)
      if res.2 = true ∧ bestLtB res.1 (target * (11 / 10)) = true then res.1
      else searchSizes awi amounts target rest res.1

/-- Source `find_best_combo(amounts_with_idx, target, max_size)`: returns the best
combination as a list of `(index, amount)` pairs, or `none`. -/
def find_best_combo (awi : List (ℕ × ℚ)) (target : ℚ) (max_size : ℕ) :
    Option (List (ℕ × ℚ)) :=
  let sizes := List.range' 2 (min (max_size + 1) (awi.length + 1) - 2)
  (searchSizes awi (awi.map Prod.snd) target sizes none).map Prod.fst

/-! ### The planner `optimize` (from `scripts/optimize.py`) -/

/-- Source `hk_orders = [o for o in orders if o.get('canHk')]`. -/
def hkOrders (orders : List Order) : List Order := orders.filter (fun o => o.canHk)

/-- The keys of `by_org` in first-insertion order (Python dicts preserve
insertion order; `by_org[o['orgId']].append(o)` creates a key at the first
eligible order of that org). -/
def orgKeys (orders : List Order) : List Int :=
  (hkOrders orders).foldl
    (fun ks o => if o.orgId ∈ ks then ks else ks ++ [o.orgId]) []

/-- Lookup `by_org[g]`: the eligible orders of org `g`, in input order. -/
def orgPool (orders : List Order) (g : Int) : List Order :=
  (hkOrders orders).filter (fun o => decide (o.orgId = g))

/-- Source `sum(float(o['ivcAmount']) for o in by_org[g])`. -/
def orgTotal (orders : List Order) (g : Int) : ℚ :=
  ((orgPool orders g).map (fun o => o.ivcAmount)).sum

/-- Source `sorted(by_org.keys(), key=lambda k: -sum(...))`: descending by group
total; Python's `sorted` is stable, so ties keep first-insertion order. -/
def sortedOrgs (orders : List Order) : List Int :=
  stableSort (fun a b => decide (orgTotal orders a < orgTotal orders b)) (orgKeys orders)

/-- Source `available = [(i, float(pool[i]['ivcAmount'])) for i in range(len(pool))]`. -/
def availOf (pool : List Order) : List (ℕ × ℚ) :=
  (List.range pool.length).map (fun i => (i, (pool.getD i default).ivcAmount))

/-- Source `remaining.sort(key=lambda x: -x[1])`: stable descending sort by amount. -/
def sortPairsDesc (l : List (ℕ × ℚ)) : List (ℕ × ℚ) :=
  stableSort (fun a b => decide (a.2 < b.2)) l

/-- The planner's `while True` loop for one org: repeatedly filter the unused
entries, stop when their total drops below target or no combo is found,
otherwise record the combo and mark its indices used.  `used` is modelled as
the append-ordered list of used indices (membership-equivalent to the
Python `set`).  Fuel `pool.length + 1` always suffices because each
iteration adds at least one fresh index. -/
def mergeLoop (avail : List (ℕ × ℚ)) (target : ℚ) (max_size : ℕ) :
    ℕ → List ℕ → List (List (ℕ × ℚ)) → List (List (ℕ × ℚ)) × List ℕ
  | 0, used, acc => (acc, used)
  | fuel + 1, used, acc =>
    let remaining := avail.filter (fun p => decide (p.1 ∉ used))
    if (remaining.map Prod.snd).sum < target then (acc, used)
    else
      match find_best_combo (sortPairsDesc remaining) target max_size with
      | none => (acc, used)
      | some combo =>
        mergeLoop avail target max_size fuel
          (used ++ combo.map Prod.fst) (acc ++ [combo])

/-- Build the `Invoice(...)` for a chosen combo:
`indices = [idx for idx, _ in combo]`, ids and amounts looked up in `pool`,
`total = sum(a for _, a in combo)`. -/
def mkInvoice (g : Int) (pool : List Order) (c : List (ℕ × ℚ)) : Invoice :=
  { org_id := g
    org_name := ""
    order_ids := (c.map Prod.fst).map (fun i => (pool.getD i default).orderId)
    amounts := (c.map Prod.fst).map (fun i => (pool.getD i default).ivcAmount)
    total := sumSnd c }

/-- The body of `for org_id in sorted(...)` for one org: either the whole pool
goes to leftover (group total below target), or the loop produces invoices and
the unused indices become the leftover entry (present only when nonempty). -/
def orgResult (orders : List Order) (target : ℚ) (max_size : ℕ) (g : Int) :
    List Invoice × Option (Int × List Order) :=
  let pool := orgPool orders g
  if ((pool.map (fun o => o.ivcAmount)).sum) < target then
    ([], some (g, pool))
  else
    let res := mergeLoop (availOf pool) target max_size (pool.length + 1) [] []
    let invs := res.1.map (fun c => mkInvoice g pool c)
    let loIdx := (List.range pool.length).filter (fun i => decide (i ∉ res.2))
    let lo := loIdx.map (fun i => pool.getD i default)
    (invs, if lo.isEmpty then none else some (g, lo))

/-- One step of the org fold: append that org's invoices and (if any) its
leftover entry to the plan being built. -/
def optStep (orders : List Order) (target : ℚ) (max_size : ℕ)
    (p : Plan) (g : Int) : Plan :=
  let r := orgResult orders target max_size g
  { invoices := p.invoices ++ r.1, leftover := p.leftover ++ r.2.toList }

/-- Source `optimize(orders, target, max_size)`: process orgs in descending order of
group total and collect invoices and leftover. -/
def optimize (orders : List Order) (target : ℚ) (max_size : ℕ) : Plan :=
  (sortedOrgs orders).foldl (optStep orders target max_size)
    { invoices := [], leftover := [] }

/-! ### The executor `batch_merge` (from `scripts/batch_merge.py`)

Only the ledger logic is modelled: the remote submission
(`submit_one_invoice`) is abstracted as a driver function from invoice and
attempt number to `(success, message)`, which is what the retry loop in
`batch_merge` consumes (exceptions are folded into a `False` outcome there).
`time` fields are irrelevant to the ledger logic and modelled as `""`. -/

/-- An invoice as read back from the plan file by `batch_merge`. -/
structure PInvoice where
  org_id : Int
  order_ids : List String
  total : ℚ
deriving DecidableEq, Repr, Inhabited

/-- One progress ledger entry (the `record` dict in `batch_merge`). -/
structure ProgRecord where
  org_id : Int
  order_ids : List String
  total : ℚ
  time : String
  message : String
deriving DecidableEq, Repr, Inhabited

/-- The progress ledger `{completed, failed, skipped}` (`load_progress`). -/
structure Progress where
  completed : List ProgRecord
  failed : List ProgRecord
  skipped : List ProgRecord
deriving DecidableEq, Repr, Inhabited

/-- Source `tuple(sorted(order_ids))`: ascending sort of the identifiers. -/
def sortStrings (l : List String) : List String :=
  stableSort (fun a b => decide (b < a)) l

/-- The identity key of a planned invoice. -/
def invKey (inv : PInvoice) : List String := sortStrings inv.order_ids

/-- The identity key of a ledger record. -/
def recKey (r : ProgRecord) : List String := sortStrings r.order_ids

/-- Source `completed_set`: the keys of the completed entries, built once at start. -/
def completedKeys (p : Progress) : List (List String) := p.completed.map recKey

/-- Source `remaining = [inv for inv in invoices if key(inv) not in completed_set]`. -/
def remainingInvs (plan : List PInvoice) (p : Progress) : List PInvoice :=
  plan.filter (fun inv => decide (invKey inv ∉ completedKeys p))

/-- The retry loop over the attempt numbers `[1..retry_limit]`: run attempts
until one succeeds, reporting the success flag, the last executed attempt's
message, and the number of attempts actually made. -/
def attemptSeq (d : ℕ → Bool × String) : List ℕ → Bool × String × ℕ
  | [] => (false, "", 0)
  | a :: rest =>
    if (d a).1 then (true, (d a).2, 1)
    else
      match rest with
      | [] => (false, (d a).2, 1)
      | _ :: _ =>
        let r := attemptSeq d rest
        (r.1, r.2.1, r.2.2 + 1)

/-- Source `for attempt in range(1, retry_limit + 1): ... if success: break`. -/
def runAttempts (d : ℕ → Bool × String) (retry_limit : ℕ) : Bool × String × ℕ :=
  attemptSeq d (List.range' 1 retry_limit)

/-- The ledger record written for an invoice with outcome message `msg`. -/
def mkRec (inv : PInvoice) (msg : String) : ProgRecord :=
  { org_id := inv.org_id, order_ids := inv.order_ids, total := inv.total,
    time := "", message := msg }

/-- Process one non-skipped invoice: run the retry loop, then append the
outcome record to `completed` on success, else to `failed`. -/
def stepInvoice (d : PInvoice → ℕ → Bool × String) (rl : ℕ)
    (p : Progress) (inv : PInvoice) : Progress :=
  let r := runAttempts (d inv) rl
  if r.1 then { p with completed := p.completed ++ [mkRec inv r.2.1] }
  else { p with failed := p.failed ++ [mkRec inv r.2.1] }

/-- The main loop of `batch_merge` over the non-skipped invoices. -/
def batchRun (d : PInvoice → ℕ → Bool × String) (rl : ℕ)
    (plan : List PInvoice) (p : Progress) : Progress :=
  (remainingInvs plan p).foldl (stepInvoice d rl) p

/-- The successive ledger states: `save_progress` persists state `k+1` right
after the `k`-th processed invoice, before the next one is touched. -/
def batchSnapshots (d : PInvoice → ℕ → Bool × String) (rl : ℕ)
    (plan : List PInvoice) (p : Progress) : List Progress :=
  List.scanl (stepInvoice d rl) p (remainingInvs plan p)

/-! ### Spec-side rendering of the group-selection search (for the
refinement claim about `find_best_combo`).  These definitions follow the
spec's words — "k largest", "k smallest", "keeps the one with the smallest
total that is still ≥ target", "a later size replacing the best only on
strictly smaller total" — rather than the source's incremental loop. -/

/-- Amounts sorted descending. -/
def sortDescQ (l : List ℚ) : List ℚ := stableSort (fun a b => decide (a < b)) l

/-- The `k` largest amounts. -/
def kLargest (amounts : List ℚ) (k : ℕ) : List ℚ := (sortDescQ amounts).take k

/-- The `k` smallest amounts. -/
def kSmallest (amounts : List ℚ) (k : ℕ) : List ℚ :=
  (sortDescQ amounts).drop ((sortDescQ amounts).length - k)

/-- The enumerated combinations that reach the target and beat the best so
far (strictly). -/
def candCombos (target : ℚ) (best : Option (List (ℕ × ℚ) × ℚ))
    (L : List (List (ℕ × ℚ))) : List (List (ℕ × ℚ)) :=
  L.filter (fun c => decide (target ≤ sumSnd c) && ltBestB (sumSnd c) best)

/-- Keep the earlier of two candidates unless the later has strictly
smaller total. -/
def pickStep (b : Option (List (ℕ × ℚ))) (c : List (ℕ × ℚ)) :
    Option (List (ℕ × ℚ)) :=
  match b with
  | none => some c
  | some b' => if sumSnd c < sumSnd b' then some c else b

/-- The combination with the smallest total (the earliest such). -/
def pickMin (L : List (List (ℕ × ℚ))) : Option (List (ℕ × ℚ)) :=
  L.foldl pickStep none

/-- Replace the running best by a strictly better candidate, if any. -/
def mergeB (best : Option (List (ℕ × ℚ) × ℚ)) :
    Option (List (ℕ × ℚ)) → Option (List (ℕ × ℚ) × ℚ)
  | none => best
  | some c => some (c, sumSnd c)

/-- Spec-worded size loop: try sizes in increasing order; skip a size whose
`k` largest amounts sum below target, or whose `k` smallest amounts already
meet the best total; otherwise keep the candidate with the smallest total;
stop as soon as a size yields a best total strictly below `1.10 * target`. -/
def specSearchSizes (awi : List (ℕ × ℚ)) (target : ℚ) :
    List ℕ → Option (List (ℕ × ℚ) × ℚ) → Option (List (ℕ × ℚ) × ℚ)
  | [], best => best
  | k :: rest, best =>
    if (kLargest (awi.map Prod.snd) k).sum < target then
      specSearchSizes awi target rest best
    else if geBestB ((kSmallest (awi.map Prod.snd) k).sum) best = true then
      specSearchSizes awi target rest best
    else
      let cs := candCombos target best (combosFrom awi k)
      let best' := mergeB best (pickMin cs)
      if cs ≠ [] ∧ bestLtB best' (target * (11 / 10)) = true then best'
      else specSearchSizes awi target rest best'

/-- The spec-worded rendering of the whole search. -/
def findBestComboSpec (awi : List (ℕ × ℚ)) (target : ℚ) (max_size : ℕ) :
    Option (List (ℕ × ℚ)) :=
  let sizes := List.range' 2 (min (max_size + 1) (awi.length + 1) - 2)
  (specSearchSizes awi target sizes none).map Prod.fst

/-! ### Concrete inputs used by witnesses and counterexamples -/

/-- Single-owner example: amounts `[70, 60, 50, 40]`. -/
def exampleOrders : List Order :=
  [{ orgId := 1, orderId := "A", ivcAmount := 70, canHk := true },
   { orgId := 1, orderId := "B", ivcAmount := 60, canHk := true },
   { orgId := 1, orderId := "C", ivcAmount := 50, canHk := true },
   { orgId := 1, orderId := "D", ivcAmount := 40, canHk := true }]

/-- Two owners with equal totals, the larger owner id appearing first. -/
def tieOrders : List Order :=
  [{ orgId := 2, orderId := "X", ivcAmount := 100, canHk := true },
   { orgId := 1, orderId := "Y", ivcAmount := 100, canHk := true }]

/-- A single small eligible order. -/
def soloOrders : List Order :=
  [{ orgId := 1, orderId := "A", ivcAmount := 30, canHk := true }]

/-- One order already above target plus a small one. -/
def bigOrders : List Order :=
  [{ orgId := 1, orderId := "A", ivcAmount := 150, canHk := true },
   { orgId := 1, orderId := "B", ivcAmount := 30, canHk := true }]

/-- A planned invoice for the executor examples. -/
def invAB : PInvoice := { org_id := 1, order_ids := ["B", "A"], total := 100 }

/-- The empty starting ledger. -/
def ledger0 : Progress := { completed := [], failed := [], skipped := [] }

/-- A driver whose every attempt succeeds. -/
def driverOK : PInvoice → ℕ → Bool × String := fun _ _ => (true, "allSuccess=true")

/-- A driver whose every attempt fails. -/
def driverFail : PInvoice → ℕ → Bool × String :=
  fun _ _ => (false, "checkMergeHkfpReq timeout or failed")

/-- What the search guarantees about any combination it returns: drawn from the
input pool (as a position-increasing sublist), of size between `2` and
`max_size`, and with total at least `target`. -/
def GoodC (awi : List (ℕ × ℚ)) (max_size : ℕ) (target : ℚ)
    (c : List (ℕ × ℚ)) : Prop :=
  c.Sublist awi ∧ 2 ≤ c.length ∧ c.length ≤ max_size ∧ target ≤ sumSnd c

/-- Invariant of the running best of the search. -/
def GoodSt (awi : List (ℕ × ℚ)) (max_size : ℕ) (target : ℚ)
    (st : Option (List (ℕ × ℚ) × ℚ)) : Prop :=
  ∀ q, st = some q → GoodC awi max_size target q.1 ∧ q.2 = sumSnd q.1

/-- The records (as identifier multisets) of looked-up leftover entries of one
org in the plan. -/
def leftoverFor (p : Plan) (g : Int) : List Order :=
  (p.leftover.filter (fun e => decide (e.1 = g))).flatMap Prod.snd

/-! ### Order and stability lemmas for the stable sort -/

theorem insSorted_perm (later : α → α → Bool) (x : α) (l : List α) :
    (insSorted later x l).Perm (x :: l) := by
  induction l with
  | nil => exact List.Perm.refl _
  | cons y ys ih =>
    by_cases h : later x y = true
    · simp only [insSorted, h, if_true]
      exact ((ih.cons y).trans (List.Perm.swap x y ys))
    · simp only [insSorted, h, if_false]
      exact List.Perm.refl _

theorem stableSort_perm (later : α → α → Bool) (l : List α) :
    (stableSort later l).Perm l := by
  induction l with
  | nil => exact List.Perm.refl _
  | cons x xs ih =>
    exact (insSorted_perm later x (stableSort later xs)).trans (ih.cons x)

theorem combosFrom_sublist_length {l : List α} {k : ℕ} {c : List α}
    (hc : c ∈ combosFrom l k) : c.Sublist l ∧ c.length = k := by
  induction l generalizing k c with
  | nil =>
    cases k with
    | zero => simp only [combosFrom, List.mem_singleton] at hc; subst hc; simp
    | succ k => simp [combosFrom] at hc
  | cons x xs ih =>
    cases k with
    | zero => simp only [combosFrom, List.mem_singleton] at hc; subst hc; simp
    | succ k =>
      simp only [combosFrom, List.mem_append, List.mem_map] at hc
      rcases hc with ⟨c', hc', rfl⟩ | hc
      · obtain ⟨h1, h2⟩ := ih hc'
        exact ⟨h1.cons₂ x, by simp [h2]⟩
      · obtain ⟨h1, h2⟩ := ih hc
        exact ⟨h1.cons x, h2⟩

/-- Inserting an element that originally precedes everything in `s` preserves
the combined "descending by key, ties by original order" pairwise relation. -/
theorem insSorted_pairwise (f : α → ℚ) (ord : α → α → Prop) (x : α) (s : List α)
    (hs : s.Pairwise (fun a b => f b < f a ∨ (f a = f b ∧ ord a b)))
    (hx : ∀ y ∈ s, ord x y) :
    (insSorted (fun a b => decide (f a < f b)) x s).Pairwise
      (fun a b => f b < f a ∨ (f a = f b ∧ ord a b)) := by
  induction s with
  | nil => simp [insSorted]
  | cons y ys ih =>
    rw [List.pairwise_cons] at hs
    obtain ⟨hy, hys⟩ := hs
    by_cases h : f x < f y
    · simp only [insSorted, decide_eq_true_eq, if_pos h]
      rw [List.pairwise_cons]
      refine ⟨?_, ih hys (fun z hz => hx z (List.mem_cons_of_mem y hz))⟩
      intro z hz
      have hz' := (insSorted_perm (fun a b => decide (f a < f b)) x ys).mem_iff.mp hz
      rcases List.mem_cons.mp hz' with rfl | hz''
      · exact Or.inl h
      · exact hy z hz''
    · simp only [insSorted, decide_eq_true_eq, if_neg h]
      rw [List.pairwise_cons]
      refine ⟨?_, List.pairwise_cons.mpr ⟨hy, hys⟩⟩
      intro z hz
      rcases List.mem_cons.mp hz with rfl | hz'
      · rcases lt_or_eq_of_le (not_lt.mp h) with h' | h'
        · exact Or.inl h'
        · exact Or.inr ⟨h'.symm, hx z (List.mem_cons_self z ys)⟩
      · have hyz := hy z hz'
        have hzy : f z ≤ f x := by
          rcases hyz with h' | ⟨h', _⟩
          · exact le_trans (le_of_lt h') (not_lt.mp h)
          · exact h' ▸ not_lt.mp h
        rcases lt_or_eq_of_le hzy with h' | h'
        · exact Or.inl h'
        · exact Or.inr ⟨h'.symm, hx z (List.mem_cons_of_mem y hz')⟩

/-- Stability of the stable sort: if `ord` orders the input list, the output is
descending by key with ties resolved by `ord` (the original order). -/
theorem stableSort_pairwise (f : α → ℚ) (ord : α → α → Prop) (l : List α)
    (hl : l.Pairwise ord) :
    (stableSort (fun a b => decide (f a < f b)) l).Pairwise
      (fun a b => f b < f a ∨ (f a = f b ∧ ord a b)) := by
  induction l with
  | nil => simp [stableSort]
  | cons x xs ih =>
    rw [List.pairwise_cons] at hl
    refine insSorted_pairwise f ord x _ (ih hl.2) ?_
    intro y hy
    exact hl.1 y ((stableSort_perm _ xs).mem_iff.mp hy)

/-- Sorting an already-descending list is the identity. -/
theorem stableSort_eq_of_sorted (f : α → ℚ) (l : List α)
    (hl : l.Pairwise (fun a b => f b ≤ f a)) :
    stableSort (fun a b => decide (f a < f b)) l = l := by
  induction l with
  | nil => rfl
  | cons x xs ih =>
    rw [List.pairwise_cons] at hl
    rw [stableSort, ih hl.2]
    cases xs with
    | nil => rfl
    | cons y ys =>
      have : ¬ f x < f y := not_lt.mpr (hl.1 y (List.mem_cons_self y ys))
      simp [insSorted, this]

/-- A list without duplicates is pairwise ordered by index of first occurrence. -/
theorem nodup_pairwise_indexOf [DecidableEq α] (l : List α) (h : l.Nodup) :
    l.Pairwise (fun a b => l.indexOf a < l.indexOf b) := by
  induction l with
  | nil => simp
  | cons x xs ih =>
    rw [List.nodup_cons] at h
    rw [List.pairwise_cons]
    constructor
    · intro y hy
      have hne : y ≠ x := fun he => h.1 (he ▸ hy)
      rw [List.indexOf_cons_self, List.indexOf_cons_ne xs hne.symm]
      exact Nat.succ_pos _
    · refine (ih h.2).imp_of_mem ?_
      intro a b ha hb hab
      have hna : a ≠ x := fun he => h.1 (he ▸ ha)
      have hnb : b ≠ x := fun he => h.1 (he ▸ hb)
      rw [List.indexOf_cons_ne xs hna.symm, List.indexOf_cons_ne xs hnb.symm]
      exact Nat.succ_lt_succ hab

/-! ### Invariants of `find_best_combo` -/

theorem foldl_comboStep_good {awi : List (ℕ × ℚ)} {max_size : ℕ} {target : ℚ}
    {size : ℕ} (h2 : 2 ≤ size) (hm : size ≤ max_size) :
    ∀ (L : List (List (ℕ × ℚ))) (st : Option (List (ℕ × ℚ) × ℚ) × Bool),
      (∀ c ∈ L, c.Sublist awi ∧ c.length = size) →
      GoodSt awi max_size target st.1 →
      GoodSt awi max_size target ((L.foldl (comboStep target) st).1) := by
  intro L
  induction L with
  | nil => intro st _ hst; exact hst
  | cons c L ih =>
    intro st hL hst
    rw [List.foldl_cons]
    refine ih _ (fun c' hc' => hL c' (List.mem_cons_of_mem c hc')) ?_
    have hc := hL c (List.mem_cons_self c L)
    unfold comboStep
    by_cases hcond : target ≤ sumSnd c ∧ ltBestB (sumSnd c) st.1 = true
    · rw [if_pos hcond]
      intro q hq
      injection hq with hq'
      subst hq'
      exact ⟨⟨hc.1, hc.2 ▸ h2, hc.2 ▸ hm, hcond.1⟩, rfl⟩
    · rw [if_neg hcond]; exact hst

theorem searchSizes_good {awi : List (ℕ × ℚ)} {amounts : List ℚ}
    {max_size : ℕ} {target : ℚ} :
    ∀ (sizes : List ℕ) (best : Option (List (ℕ × ℚ) × ℚ)),
      (∀ k ∈ sizes, 2 ≤ k ∧ k ≤ max_size) →
      GoodSt awi max_size target best →
      GoodSt awi max_size target (searchSizes awi amounts target sizes best) := by
  intro sizes
  induction sizes with
  | nil => intro best _ hb; exact hb
  | cons size rest ih =>
    intro best hsz hb
    have hs := hsz size (List.mem_cons_self size rest)
    have hrest : ∀ k ∈ rest, 2 ≤ k ∧ k ≤ max_size :=
      fun k hk => hsz k (List.mem_cons_of_mem size hk)
    unfold searchSizes
    by_cases h1 : (amounts.take size).sum < target
    · rw [if_pos h1]; exact ih best hrest hb
    · rw [if_neg h1]
      by_cases h2 : geBestB ((amounts.drop (amounts.length - size)).sum) best = true
      · rw [if_pos h2]; exact ih best hrest hb
      · rw [if_neg h2]
        have hres : GoodSt awi max_size target
            (((combosFrom awi size).foldl (comboStep target) (best, false)).1) := by
          refine foldl_comboStep_good hs.1 hs.2 _ (best, false)
            (fun c hc => combosFrom_sublist_length hc) hb
        by_cases h3 : ((combosFrom awi size).foldl (comboStep target) (best, false)).2 = true
            ∧ bestLtB (((combosFrom awi size).foldl (comboStep target) (best, false)).1)
                (target * (11 / 10)) = true
        · rw [if_pos h3]; exact hres
        · rw [if_neg h3]; exact ih _ hrest hres

/-- Any combination returned by `find_best_combo` is a sublist of the pool, has
between `2` and `max_size` elements, and totals at least `target`. -/
theorem find_best_combo_good {awi : List (ℕ × ℚ)} {target : ℚ} {max_size : ℕ}
    {c : List (ℕ × ℚ)} (h : find_best_combo awi target max_size = some c) :
    GoodC awi max_size target c := by
  unfold find_best_combo at h
  rw [Option.map_eq_some'] at h
  obtain ⟨q, hq, hq2⟩ := h
  have hsz : ∀ k ∈ List.range' 2 (min (max_size + 1) (awi.length + 1) - 2),
      2 ≤ k ∧ k ≤ max_size := by
    intro k hk
    rw [List.mem_range'_1] at hk
    have h1 : min (max_size + 1) (awi.length + 1) ≤ max_size + 1 := Nat.min_le_left _ _
    omega
  have := searchSizes_good _ none hsz (fun q hq => by simp at hq) q hq
  exact hq2 ▸ this.1

/-! ### Pool and index bookkeeping lemmas -/

theorem map_range_getD (pool : List Order) (f : Order → β) :
    (List.range pool.length).map (fun i => f (pool.getD i default)) = pool.map f := by
  induction pool with
  | nil => rfl
  | cons o rest ih =>
    simp only [List.length_cons, List.range_succ_eq_map, List.map_cons, List.map_map]
    refine congrArg₂ _ (by rw [List.getD_cons_zero]) ?_
    rw [← ih]
    exact List.map_congr_left (fun i _ => by simp [Function.comp, List.getD_cons_succ])

theorem availOf_map_fst (pool : List Order) :
    (availOf pool).map Prod.fst = List.range pool.length := by
  unfold availOf
  rw [List.map_map]
  exact (List.map_congr_left (fun i _ => rfl)).trans (List.map_id _)

theorem mem_availOf {pool : List Order} {p : ℕ × ℚ} (h : p ∈ availOf pool) :
    p.1 < pool.length ∧ p.2 = (pool.getD p.1 default).ivcAmount := by
  unfold availOf at h
  rw [List.mem_map] at h
  obtain ⟨i, hi, rfl⟩ := h
  exact ⟨List.mem_range.mp hi, rfl⟩

/-- The invariant of the per-org `while True` loop: the result extends the
accumulators by a block `Δ` of combos; the used-index list is exactly the
accumulated combo indices, stays duplicate-free, and every combo is sized
in `[2, max_size]`, reaches `target`, and draws fresh indices from `avail`. -/
theorem mergeLoop_spec (avail : List (ℕ × ℚ)) (target : ℚ) (max_size : ℕ)
    (hav : ((avail.map Prod.fst).Nodup)) :
    ∀ (fuel : ℕ) (used : List ℕ) (acc : List (List (ℕ × ℚ))), used.Nodup →
    ∃ Δ, mergeLoop avail target max_size fuel used acc
        = (acc ++ Δ, used ++ Δ.flatMap (fun c => c.map Prod.fst))
      ∧ (used ++ Δ.flatMap (fun c => c.map Prod.fst)).Nodup
      ∧ ∀ c ∈ Δ, 2 ≤ c.length ∧ c.length ≤ max_size ∧ target ≤ sumSnd c
          ∧ (c.map Prod.fst).Nodup ∧ ∀ p ∈ c, p ∈ avail ∧ p.1 ∉ used := by
  intro fuel
  induction fuel with
  | zero =>
    intro used acc hu
    exact ⟨[], by simp [mergeLoop], by simpa using hu, by simp⟩
  | succ fuel ih =>
    intro used acc hu
    unfold mergeLoop
    by_cases h1 : (((avail.filter (fun p => decide (p.1 ∉ used))).map Prod.snd).sum) < target
    · rw [if_pos h1]
      exact ⟨[], by simp, by simpa using hu, by simp⟩
    · rw [if_neg h1]
      rcases hfb : find_best_combo
          (sortPairsDesc (avail.filter (fun p => decide (p.1 ∉ used)))) target max_size with
        _ | combo
      · exact ⟨[], by simp, by simpa using hu, by simp⟩
      · have hgood := find_best_combo_good hfb
        have hperm : List.Perm (sortPairsDesc (avail.filter (fun p => decide (p.1 ∉ used))))
            (avail.filter (fun p => decide (p.1 ∉ used))) := stableSort_perm _ _
        have hmem : ∀ p ∈ combo, p ∈ avail ∧ p.1 ∉ used := by
          intro p hp
          have hp1 := hperm.mem_iff.mp (hgood.1.mem hp)
          rw [List.mem_filter] at hp1
          exact ⟨hp1.1, by simpa using hp1.2⟩
        have hfstnd : (combo.map Prod.fst).Nodup := by
          have h2 : List.Sublist (combo.map Prod.fst)
              ((sortPairsDesc (avail.filter (fun p => decide (p.1 ∉ used)))).map Prod.fst) :=
            hgood.1.map Prod.fst
          have h3 : ((avail.filter (fun p => decide (p.1 ∉ used))).map Prod.fst).Nodup :=
            hav.sublist ((List.filter_sublist avail).map Prod.fst)
          exact ((hperm.map Prod.fst).nodup_iff.mpr h3).sublist h2
        have hused' : (used ++ combo.map Prod.fst).Nodup := by
          rw [List.nodup_append]
          refine ⟨hu, hfstnd, ?_⟩
          intro a ha hb
          rw [List.mem_map] at hb
          obtain ⟨p, hp, hpa⟩ := hb
          exact (hmem p hp).2 (hpa ▸ ha)
        obtain ⟨Δ, hΔeq, hΔnd, hΔprop⟩ := ih (used ++ combo.map Prod.fst) (acc ++ [combo]) hused'
        refine ⟨combo :: Δ, ?_, ?_, ?_⟩
        · exact hΔeq.trans (by rw [List.flatMap_cons]; simp [List.append_assoc])
        · rw [List.flatMap_cons, ← List.append_assoc]
          exact hΔnd
        · intro c hc
          rcases List.mem_cons.mp hc with rfl | hc'
          · exact ⟨hgood.2.1, hgood.2.2.1, hgood.2.2.2, hfstnd, hmem⟩
          · obtain ⟨ha, hb, hcc, hd, he⟩ := hΔprop c hc'
            refine ⟨ha, hb, hcc, hd, ?_⟩
            intro p hp
            obtain ⟨hp1, hp2⟩ := he p hp
            exact ⟨hp1, fun hcon => hp2 (List.mem_append_left _ hcon)⟩

/-- Fuel adequacy, one step: once the fuel exceeds the number of remaining
entries, one more unit of fuel changes nothing — each iteration consumes at
least one fresh index, so the loop always stops by itself first.  This is
what makes fuel `pool.length + 1` a faithful rendering of `while True`. -/
theorem mergeLoop_fuel_stable (avail : List (ℕ × ℚ)) (target : ℚ) (max_size : ℕ)
    (hav : ((avail.map Prod.fst).Nodup)) :
    ∀ (fuel : ℕ) (used : List ℕ) (acc : List (List (ℕ × ℚ))),
      (avail.filter (fun p => decide (p.1 ∉ used))).length < fuel →
      mergeLoop avail target max_size fuel used acc
        = mergeLoop avail target max_size (fuel + 1) used acc := by
  intro fuel
  induction fuel with
  | zero => intro used acc h; omega
  | succ f ih =>
    intro used acc hlen
    show mergeLoop avail target max_size (f + 1) used acc
      = mergeLoop avail target max_size (f + 1 + 1) used acc
    unfold mergeLoop
    by_cases h1 : (((avail.filter (fun p => decide (p.1 ∉ used))).map Prod.snd).sum) < target
    · rw [if_pos h1, if_pos h1]
    · rw [if_neg h1, if_neg h1]
      rcases hfb : find_best_combo
          (sortPairsDesc (avail.filter (fun p => decide (p.1 ∉ used)))) target max_size with
        _ | combo
      · rfl
      · have hgood := find_best_combo_good hfb
        have hperm : List.Perm (sortPairsDesc (avail.filter (fun p => decide (p.1 ∉ used))))
            (avail.filter (fun p => decide (p.1 ∉ used))) := stableSort_perm _ _
        have hmem : ∀ p ∈ combo, p ∈ avail.filter (fun p => decide (p.1 ∉ used)) :=
          fun p hp => hperm.mem_iff.mp (hgood.1.mem hp)
        have hrem' : avail.filter (fun p => decide (p.1 ∉ used ++ combo.map Prod.fst))
            = (avail.filter (fun p => decide (p.1 ∉ used))).filter
                (fun p => decide (p.1 ∉ combo.map Prod.fst)) := by
          rw [List.filter_filter]
          refine List.filter_congr ?_
          intro p _
          by_cases hA : p.1 ∈ used <;> by_cases hB : p.1 ∈ combo.map Prod.fst <;>
            simp [List.mem_append, hA, hB]
        have hne : combo ≠ [] := by
          intro hc
          rw [hc] at hgood
          simpa using hgood.2.1
        obtain ⟨p0, hp0⟩ := List.exists_mem_of_ne_nil combo hne
        have hp0r := hmem p0 hp0
        have hp0n : p0 ∉ (avail.filter (fun p => decide (p.1 ∉ used))).filter
            (fun p => decide (p.1 ∉ combo.map Prod.fst)) := by
          rw [List.mem_filter]
          rintro ⟨_, hdec⟩
          rw [decide_eq_true_eq] at hdec
          exact hdec (List.mem_map_of_mem Prod.fst hp0)
        have hlt : ((avail.filter (fun p => decide (p.1 ∉ used ++ combo.map Prod.fst))).length)
            < (avail.filter (fun p => decide (p.1 ∉ used))).length := by
          rw [hrem']
          refine lt_of_le_of_ne (List.Sublist.length_le (List.filter_sublist _)) ?_
          intro heq
          exact hp0n
            ((List.Sublist.eq_of_length (List.filter_sublist _) heq).symm ▸ hp0r)
        exact ih (used ++ combo.map Prod.fst) (acc ++ [combo]) (by omega)

/-- Fuel adequacy, arbitrary surplus. -/
theorem mergeLoop_fuel_add (avail : List (ℕ × ℚ)) (target : ℚ) (max_size : ℕ)
    (hav : ((avail.map Prod.fst).Nodup)) (used : List ℕ) (acc : List (List (ℕ × ℚ)))
    (fuel : ℕ) (hlen : (avail.filter (fun p => decide (p.1 ∉ used))).length < fuel) :
    ∀ k, mergeLoop avail target max_size fuel used acc
      = mergeLoop avail target max_size (fuel + k) used acc := by
  intro k
  induction k with
  | zero => rfl
  | succ k ih =>
    rw [ih, ← Nat.add_assoc]
    exact mergeLoop_fuel_stable avail target max_size hav (fuel + k) used acc (by omega)

/-- Any fuel above the pool size produces the very result the embedding's
`pool.length + 1` does: the `while True` loop's outcome is fuel-independent. -/
theorem mergeLoop_fuel_canonical (avail : List (ℕ × ℚ)) (target : ℚ) (max_size : ℕ)
    (hav : ((avail.map Prod.fst).Nodup)) (fuel : ℕ)
    (hlen : avail.length < fuel) :
    mergeLoop avail target max_size fuel [] []
      = mergeLoop avail target max_size (avail.length + 1) [] [] := by
  have hfil : (avail.filter (fun p => decide (p.1 ∉ ([] : List ℕ)))).length
      = avail.length := by
    rw [List.filter_eq_self.mpr (fun p _ => by simp)]
  have h1 := mergeLoop_fuel_add avail target max_size hav [] [] (avail.length + 1)
    (by rw [hfil]; omega) (fuel - (avail.length + 1))
  rw [h1]
  congr 1
  omega

/-! ### Lemmas about the org grouping -/

theorem orgKeys_foldl_mem (x : Int) :
    ∀ (l : List Order) (ks : List Int),
      (x ∈ l.foldl (fun ks o => if o.orgId ∈ ks then ks else ks ++ [o.orgId]) ks
        ↔ x ∈ ks ∨ ∃ o ∈ l, o.orgId = x) := by
  intro l
  induction l with
  | nil => intro ks; simp
  | cons o rest ih =>
    intro ks
    rw [List.foldl_cons]
    by_cases h : o.orgId ∈ ks
    · rw [if_pos h, ih]
      constructor
      · rintro (hk | ho)
        · exact Or.inl hk
        · exact Or.inr (by obtain ⟨o', h1, h2⟩ := ho; exact ⟨o', List.mem_cons_of_mem o h1, h2⟩)
      · rintro (hk | ⟨o', ho', rfl⟩)
        · exact Or.inl hk
        · rcases List.mem_cons.mp ho' with rfl | ho''
          · exact Or.inl h
          · exact Or.inr ⟨o', ho'', rfl⟩
    · rw [if_neg h, ih]
      constructor
      · rintro (hk | ho)
        · rcases List.mem_append.mp hk with hk' | hk'
          · exact Or.inl hk'
          · exact Or.inr ⟨o, List.mem_cons_self o rest, (List.mem_singleton.mp hk').symm⟩
        · exact Or.inr (by obtain ⟨o', h1, h2⟩ := ho; exact ⟨o', List.mem_cons_of_mem o h1, h2⟩)
      · rintro (hk | ⟨o', ho', rfl⟩)
        · exact Or.inl (List.mem_append_left _ hk)
        · rcases List.mem_cons.mp ho' with rfl | ho''
          · exact Or.inl (List.mem_append_right _ (List.mem_singleton.mpr rfl))
          · exact Or.inr ⟨o', ho'', rfl⟩

theorem mem_orgKeys {orders : List Order} {g : Int} :
    g ∈ orgKeys orders ↔ ∃ o ∈ hkOrders orders, o.orgId = g := by
  unfold orgKeys
  rw [orgKeys_foldl_mem]
  simp

theorem orgKeys_nodup (orders : List Order) : (orgKeys orders).Nodup := by
  unfold orgKeys
  have : ∀ (l : List Order) (ks : List Int), ks.Nodup →
      (l.foldl (fun ks o => if o.orgId ∈ ks then ks else ks ++ [o.orgId]) ks).Nodup := by
    intro l
    induction l with
    | nil => intro ks h; exact h
    | cons o rest ih =>
      intro ks h
      rw [List.foldl_cons]
      by_cases hmem : o.orgId ∈ ks
      · rw [if_pos hmem]; exact ih ks h
      · rw [if_neg hmem]
        refine ih _ ?_
        rw [List.nodup_append]
        exact ⟨h, List.nodup_singleton _, by
          intro a ha hb
          exact hmem (((List.mem_singleton.mp hb) ▸ ha))⟩
  exact this _ [] (List.nodup_nil)

theorem sortedOrgs_perm (orders : List Order) :
    List.Perm (sortedOrgs orders) (orgKeys orders) := stableSort_perm _ _

theorem sortedOrgs_nodup (orders : List Order) : (sortedOrgs orders).Nodup :=
  (sortedOrgs_perm orders).nodup_iff.mpr (orgKeys_nodup orders)

theorem orgPool_eq_nil_of_not_mem {orders : List Order} {g : Int}
    (h : g ∉ orgKeys orders) : orgPool orders g = [] := by
  unfold orgPool
  rw [List.filter_eq_nil_iff]
  intro o ho
  simp only [decide_eq_true_eq]
  intro he
  exact h (mem_orgKeys.mpr ⟨o, ho, he⟩)

/-! ### Assembling `optimize` from the per-org results -/

theorem foldl_optStep (orders : List Order) (t : ℚ) (m : ℕ) :
    ∀ (gs : List Int) (p : Plan),
      gs.foldl (optStep orders t m) p
        = { invoices := p.invoices ++ gs.flatMap (fun g => (orgResult orders t m g).1),
            leftover := p.leftover ++ gs.flatMap (fun g => (orgResult orders t m g).2.toList) } := by
  intro gs
  induction gs with
  | nil => intro p; simp
  | cons g gs ih =>
    intro p
    rw [List.foldl_cons, ih]
    simp [optStep, List.flatMap_cons, List.append_assoc]

theorem optimize_eq (orders : List Order) (t : ℚ) (m : ℕ) :
    optimize orders t m
      = { invoices := (sortedOrgs orders).flatMap (fun g => (orgResult orders t m g).1),
          leftover := (sortedOrgs orders).flatMap (fun g => (orgResult orders t m g).2.toList) } := by
  unfold optimize
  rw [foldl_optStep]
  simp

theorem orgResult_inv_org_id {orders : List Order} {t : ℚ} {m : ℕ} {g : Int}
    {inv : Invoice} (h : inv ∈ (orgResult orders t m g).1) : inv.org_id = g := by
  simp only [orgResult] at h
  by_cases hlt : (((orgPool orders g).map (fun o => o.ivcAmount)).sum) < t
  · rw [if_pos hlt] at h; simp at h
  · rw [if_neg hlt] at h
    simp only [List.mem_map] at h
    obtain ⟨c, _, rfl⟩ := h
    rfl

theorem orgResult_lo_key {orders : List Order} {t : ℚ} {m : ℕ} {g : Int}
    {e : Int × List Order} (h : e ∈ (orgResult orders t m g).2.toList) : e.1 = g := by
  simp only [orgResult] at h
  by_cases hlt : (((orgPool orders g).map (fun o => o.ivcAmount)).sum) < t
  · rw [if_pos hlt] at h
    simp only [Option.toList_some, List.mem_singleton] at h
    subst h; rfl
  · rw [if_neg hlt] at h
    by_cases hlo : (((List.range (orgPool orders g).length).filter
        (fun i => decide (i ∉ (mergeLoop (availOf (orgPool orders g)) t m
          ((orgPool orders g).length + 1) [] []).2))).map
        (fun i => (orgPool orders g).getD i default)).isEmpty
    · rw [if_pos hlo] at h; simp at h
    · rw [if_neg hlo] at h
      simp only [Option.toList_some, List.mem_singleton] at h
      subst h; rfl

theorem flatMap_filter_key {β : Type} (key : β → Int) (F : Int → List β) :
    ∀ (gs : List Int), gs.Nodup → (∀ g' ∈ gs, ∀ b ∈ F g', key b = g') → ∀ g,
      (gs.flatMap F).filter (fun b => decide (key b = g))
        = if g ∈ gs then F g else [] := by
  intro gs
  induction gs with
  | nil => intro _ _ g; simp
  | cons g' gs ih =>
    intro hnd hk g
    rw [List.nodup_cons] at hnd
    rw [List.flatMap_cons, List.filter_append]
    have hk' : ∀ a ∈ gs, ∀ b ∈ F a, key b = a :=
      fun a ha => hk a (List.mem_cons_of_mem g' ha)
    by_cases hg : g = g'
    · subst hg
      have h1 : (F g).filter (fun b => decide (key b = g)) = F g :=
        List.filter_eq_self.mpr (fun b hb => by
          simp [hk g (List.mem_cons_self g gs) b hb])
      rw [h1, ih hnd.2 hk' g, if_neg hnd.1, if_pos (List.mem_cons_self g gs)]
      simp
    · have h1 : (F g').filter (fun b => decide (key b = g)) = [] :=
        List.filter_eq_nil_iff.mpr (fun b hb => by
          simp [hk g' (List.mem_cons_self g' gs) b hb, Ne.symm hg])
      rw [h1, ih hnd.2 hk' g]
      have : (g ∈ g' :: gs) ↔ (g ∈ gs) := by
        rw [List.mem_cons]
        exact ⟨fun h => h.resolve_left hg, Or.inr⟩
      by_cases h2 : g ∈ gs
      · rw [if_pos h2, if_pos (this.mpr h2)]; simp
      · rw [if_neg h2, if_neg (fun hc => h2 (this.mp hc))]; simp

theorem optimize_invoices_filter (orders : List Order) (t : ℚ) (m : ℕ) (g : Int) :
    (optimize orders t m).invoices.filter (fun i => decide (i.org_id = g))
      = if g ∈ sortedOrgs orders then (orgResult orders t m g).1 else [] := by
  rw [optimize_eq]
  exact flatMap_filter_key (fun i => i.org_id) _ _ (sortedOrgs_nodup orders)
    (fun g' _ inv hinv => orgResult_inv_org_id hinv) g

theorem optimize_leftover_filter (orders : List Order) (t : ℚ) (m : ℕ) (g : Int) :
    (optimize orders t m).leftover.filter (fun e => decide (e.1 = g))
      = if g ∈ sortedOrgs orders then (orgResult orders t m g).2.toList else [] := by
  rw [optimize_eq]
  exact flatMap_filter_key (fun e => e.1) _ _ (sortedOrgs_nodup orders)
    (fun g' _ e he => orgResult_lo_key he) g

theorem toList_flatMap_if (g : Int) (lo : List Order) :
    ((if lo.isEmpty then none else some (g, lo)) : Option (Int × List Order)).toList.flatMap
      Prod.snd = lo := by
  by_cases h : lo.isEmpty
  · rw [if_pos h]; simp [List.isEmpty_iff.mp h]
  · rw [if_neg h]; simp

/-- Per-org partition at the identifier level: the ids of that org's invoices
together with the ids of its leftover entry are a permutation of the ids of
the org's eligible pool. -/
theorem orgResult_partition (orders : List Order) (t : ℚ) (m : ℕ) (g : Int) :
    List.Perm
      (((orgResult orders t m g).1.flatMap (fun i => i.order_ids))
        ++ ((orgResult orders t m g).2.toList.flatMap Prod.snd).map (fun o => o.orderId))
      ((orgPool orders g).map (fun o => o.orderId)) := by
  by_cases hlt : (((orgPool orders g).map (fun o => o.ivcAmount)).sum) < t
  · simp only [orgResult, if_pos hlt]
    simp
  · obtain ⟨Δ, hΔeq, hΔnd, hΔprop⟩ :=
      mergeLoop_spec (availOf (orgPool orders g)) t m
        (by rw [availOf_map_fst]; exact List.nodup_range _)
        ((orgPool orders g).length + 1) [] [] List.nodup_nil
    simp only [List.nil_append] at hΔeq hΔnd hΔprop
    simp only [orgResult, if_neg hlt, hΔeq, toList_flatMap_if]
    set pool := orgPool orders g with hpool
    set U := Δ.flatMap (fun c => c.map Prod.fst) with hU
    have hids : (Δ.map (fun c => mkInvoice g pool c)).flatMap (fun i => i.order_ids)
        = U.map (fun i => (pool.getD i default).orderId) := by
      rw [List.flatMap_map, hU, List.map_flatMap]
      rfl
    have hlo : (((List.range pool.length).filter (fun i => decide (i ∉ U))).map
          (fun i => (pool.getD i default))).map (fun o => o.orderId)
        = ((List.range pool.length).filter (fun i => decide (i ∉ U))).map
          (fun i => (pool.getD i default).orderId) := by
      rw [List.map_map]
      exact List.map_congr_left (fun i _ => rfl)
    rw [hids, hlo, ← List.map_append]
    have hUsub : ∀ i ∈ U, i ∈ List.range pool.length := by
      intro i hi
      rw [hU, List.mem_flatMap] at hi
      obtain ⟨c, hc, hic⟩ := hi
      rw [List.mem_map] at hic
      obtain ⟨p, hp, rfl⟩ := hic
      have := (hΔprop c hc).2.2.2.2 p hp
      rw [List.mem_range]
      exact (mem_availOf this.1).1
    have hperm : List.Perm (U ++ (List.range pool.length).filter (fun i => decide (i ∉ U)))
        (List.range pool.length) := by
      have h1 : List.Perm U ((List.range pool.length).filter (fun i => decide (i ∈ U))) := by
        rw [List.perm_ext_iff_of_nodup hΔnd
          ((List.nodup_range _).sublist (List.filter_sublist _))]
        intro a
        rw [List.mem_filter]
        constructor
        · intro ha; exact ⟨hUsub a ha, by simpa using ha⟩
        · intro ha; simpa using ha.2
      have h2 : ((List.range pool.length).filter (fun i => decide (i ∉ U)))
          = ((List.range pool.length).filter (fun i => !(decide (i ∈ U)))) :=
        List.filter_congr (fun a _ => by simp)
      rw [h2]
      exact (h1.append (List.Perm.refl _)).trans
        (List.filter_append_perm (fun i => decide (i ∈ U)) (List.range pool.length))
    refine (hperm.map _).trans ?_
    rw [map_range_getD pool (fun o => o.orderId)]

theorem mem_orgPool {orders : List Order} {g : Int} {o : Order}
    (h : o ∈ orgPool orders g) : o ∈ orders ∧ o.canHk = true ∧ o.orgId = g := by
  unfold orgPool hkOrders at h
  rw [List.mem_filter] at h
  obtain ⟨h1, h2⟩ := h
  rw [List.mem_filter] at h1
  exact ⟨h1.1, h1.2, by simpa using h2⟩

/-- Every invoice of an org result is built from a combo drawn from the
org's availability list. -/
theorem orgResult_inv_spec {orders : List Order} {t : ℚ} {m : ℕ} {g : Int}
    {inv : Invoice} (h : inv ∈ (orgResult orders t m g).1) :
    ∃ c, inv = mkInvoice g (orgPool orders g) c
      ∧ 2 ≤ c.length ∧ c.length ≤ m ∧ t ≤ sumSnd c
      ∧ ∀ p ∈ c, p ∈ availOf (orgPool orders g) := by
  obtain ⟨Δ, hΔeq, hΔnd, hΔprop⟩ :=
    mergeLoop_spec (availOf (orgPool orders g)) t m
      (by rw [availOf_map_fst]; exact List.nodup_range _)
      ((orgPool orders g).length + 1) [] [] List.nodup_nil
  simp only [List.nil_append] at hΔeq hΔnd hΔprop
  simp only [orgResult] at h
  by_cases hlt : (((orgPool orders g).map (fun o => o.ivcAmount)).sum) < t
  · rw [if_pos hlt] at h; simp at h
  · rw [if_neg hlt] at h
    simp only [hΔeq, List.mem_map] at h
    obtain ⟨c, hc, rfl⟩ := h
    obtain ⟨h2, hm, ht, _, hp⟩ := hΔprop c hc
    exact ⟨c, rfl, h2, hm, ht, fun p hpc => (hp p hpc).1⟩

/-- Leftover entries hold orders from the entry's org pool. -/
theorem orgResult_lo_sub {orders : List Order} {t : ℚ} {m : ℕ} {g : Int}
    {e : Int × List Order} (h : e ∈ (orgResult orders t m g).2.toList) :
    ∀ o ∈ e.2, o ∈ orgPool orders g := by
  simp only [orgResult] at h
  by_cases hlt : (((orgPool orders g).map (fun o => o.ivcAmount)).sum) < t
  · rw [if_pos hlt] at h
    simp only [Option.toList_some, List.mem_singleton] at h
    subst h
    exact fun o ho => ho
  · rw [if_neg hlt] at h
    rcases hb : (((List.range (orgPool orders g).length).filter
        (fun i => decide (i ∉ (mergeLoop (availOf (orgPool orders g)) t m
          ((orgPool orders g).length + 1) [] []).2))).map
        (fun i => (orgPool orders g).getD i default)).isEmpty with _ | _
    · rw [if_neg (by rw [hb]; exact Bool.false_ne_true)] at h
      simp only [Option.toList_some, List.mem_singleton] at h
      subst h
      intro o ho
      simp only [List.mem_map] at ho
      obtain ⟨i, hi, rfl⟩ := ho
      have hir : i ∈ List.range (orgPool orders g).length :=
        (List.filter_sublist _).mem hi
      rw [List.mem_range] at hir
      rw [List.getD_eq_getElem _ default hir]
      exact List.getElem_mem hir
    · rw [if_pos hb] at h
      simp at h

theorem optimize_leftover_keys_nodup (orders : List Order) (t : ℚ) (m : ℕ) :
    ((optimize orders t m).leftover.map Prod.fst).Nodup := by
  rw [optimize_eq]
  have hsub : ∀ gs : List Int,
      List.Sublist ((gs.flatMap (fun g => (orgResult orders t m g).2.toList)).map Prod.fst)
        gs := by
    intro gs
    induction gs with
    | nil => simp
    | cons g gs ih =>
      rw [List.flatMap_cons, List.map_append]
      show List.Sublist _ ([g] ++ gs)
      refine List.Sublist.append ?_ ih
      rcases ho : (orgResult orders t m g).2 with _ | e
      · simp
      · have he : e ∈ (orgResult orders t m g).2.toList := by
          rw [ho]; exact List.mem_singleton.mpr rfl
        have := orgResult_lo_key he
        simp only [ho, Option.toList_some, List.map_cons, List.map_nil, this]
        exact List.Sublist.refl _
  exact (sortedOrgs_nodup orders).sublist (hsub _)

/-- The orgs of leftover entries and the content of the leftover lists come
from the corresponding eligible pools. -/
theorem optimize_leftover_mem (orders : List Order) (t : ℚ) (m : ℕ) :
    ∀ e ∈ (optimize orders t m).leftover, ∀ o ∈ e.2,
      o ∈ orders ∧ o.canHk = true ∧ o.orgId = e.1 := by
  rw [optimize_eq]
  intro e he o ho
  simp only [List.mem_flatMap] at he
  obtain ⟨g, _, he⟩ := he
  have hk := orgResult_lo_key he
  have := mem_orgPool (orgResult_lo_sub he o ho)
  exact ⟨this.1, this.2.1, hk ▸ this.2.2⟩

/-- Full-plan partition: per org, invoice identifiers plus leftover
identifiers are a permutation of the eligible pool's identifiers. -/
theorem optimize_partition (orders : List Order) (t : ℚ) (m : ℕ) (g : Int) :
    List.Perm
      ((((optimize orders t m).invoices.filter
          (fun i => decide (i.org_id = g))).flatMap (fun i => i.order_ids))
        ++ (leftoverFor (optimize orders t m) g).map (fun o => o.orderId))
      ((orgPool orders g).map (fun o => o.orderId)) := by
  unfold leftoverFor
  rw [optimize_invoices_filter, optimize_leftover_filter]
  by_cases hg : g ∈ sortedOrgs orders
  · rw [if_pos hg, if_pos hg]
    exact orgResult_partition orders t m g
  · rw [if_neg hg, if_neg hg]
    have : orgPool orders g = [] :=
      orgPool_eq_nil_of_not_mem (fun hc => hg ((sortedOrgs_perm orders).mem_iff.mpr hc))
    simp [this]

/-! ### Executor lemmas -/

/-- The processed block appends exactly one record per invoice: successes to
`completed`, failures to `failed`; `skipped` is never touched. -/
theorem batchFold_eq (d : PInvoice → ℕ → Bool × String) (rl : ℕ) :
    ∀ (l : List PInvoice) (p : Progress),
      l.foldl (stepInvoice d rl) p
        = { completed := p.completed
              ++ (l.filter (fun i => (runAttempts (d i) rl).1)).map
                  (fun i => mkRec i (runAttempts (d i) rl).2.1),
            failed := p.failed
              ++ (l.filter (fun i => !(runAttempts (d i) rl).1)).map
                  (fun i => mkRec i (runAttempts (d i) rl).2.1),
            skipped := p.skipped } := by
  intro l
  induction l with
  | nil => intro p; simp
  | cons i l ih =>
    intro p
    rw [List.foldl_cons, ih]
    by_cases h : (runAttempts (d i) rl).1
    · simp [stepInvoice, h, List.filter_cons, List.append_assoc]
    · simp [stepInvoice, h, List.filter_cons, List.append_assoc,
        Bool.not_eq_true' .. |>.mpr (Bool.not_eq_true _ |>.mp h)]

theorem attemptSeq_all_fail (d : ℕ → Bool × String) :
    ∀ (L : List ℕ), (∀ a ∈ L, (d a).1 = false) →
      (attemptSeq d L).1 = false ∧ (attemptSeq d L).2.2 = L.length := by
  intro L
  induction L with
  | nil => intro _; exact ⟨rfl, rfl⟩
  | cons a rest ih =>
    intro h
    have ha : (d a).1 = false := h a (List.mem_cons_self a rest)
    unfold attemptSeq
    rw [if_neg (by simp [ha])]
    cases rest with
    | nil => exact ⟨rfl, rfl⟩
    | cons b rest' =>
      obtain ⟨h1, h2⟩ := ih (fun x hx => h x (List.mem_cons_of_mem a hx))
      exact ⟨h1, by simp [h2]⟩

theorem runAttempts_all_fail (d : ℕ → Bool × String) (rl : ℕ)
    (h : ∀ a, 1 ≤ a → a ≤ rl → (d a).1 = false) :
    (runAttempts d rl).1 = false ∧ (runAttempts d rl).2.2 = rl := by
  have := attemptSeq_all_fail d (List.range' 1 rl) (fun a ha => by
    rw [List.mem_range'_1] at ha
    exact h a ha.1 (by omega))
  unfold runAttempts
  exact ⟨this.1, by rw [this.2]; simp⟩

theorem attemptSeq_first_success (d : ℕ → Bool × String) :
    ∀ (n s j : ℕ), s ≤ j → j < s + n → (d j).1 = true →
      (∀ b, s ≤ b → b < j → (d b).1 = false) →
      attemptSeq d (List.range' s n) = (true, (d j).2, j + 1 - s) := by
  intro n
  induction n with
  | zero => intro s j h1 h2; omega
  | succ n ih =>
    intro s j h1 h2 h3 h4
    rw [List.range'_succ]
    unfold attemptSeq
    rcases Nat.eq_or_lt_of_le h1 with rfl | hlt
    · rw [if_pos h3]
      have : s + 1 - s = 1 := by omega
      rw [this]
    · rw [if_neg (by simp [h4 s (le_refl s) hlt])]
      have hn : 0 < n := by omega
      rcases hr : List.range' (s + 1) n with _ | ⟨x, xs⟩
      · exfalso
        have h5 := congrArg List.length hr
        simp at h5
        omega
      · have hih := ih (s + 1) j (by omega) (by omega) h3
          (fun b hb1 hb2 => h4 b (by omega) hb2)
        rw [hr] at hih
        show ((attemptSeq d (x :: xs)).1, (attemptSeq d (x :: xs)).2.1,
          (attemptSeq d (x :: xs)).2.2 + 1) = (true, (d j).2, j + 1 - s)
        rw [hih]
        have h5 : j + 1 - (s + 1) + 1 = j + 1 - s := by omega
        rw [h5]

theorem runAttempts_first_success (d : ℕ → Bool × String) (rl j : ℕ)
    (h1 : 1 ≤ j) (h2 : j ≤ rl) (h3 : (d j).1 = true)
    (h4 : ∀ b, 1 ≤ b → b < j → (d b).1 = false) :
    runAttempts d rl = (true, (d j).2, j) := by
  unfold runAttempts
  rw [attemptSeq_first_success d rl 1 j h1 (by omega) h3
    (fun b hb1 hb2 => h4 b hb1 hb2)]
  have : j + 1 - 1 = j := by omega
  rw [this]

theorem scanl_getD_zero (f : β → α → β) (d0 : β) (l : List α) (b : β) :
    (List.scanl f b l).getD 0 d0 = b := by
  cases l <;> simp [List.scanl_nil, List.scanl_cons]

theorem scanl_getD_succ (f : β → α → β) (d0 : β) (da : α) :
    ∀ (l : List α) (b : β) (k : ℕ), k < l.length →
      (List.scanl f b l).getD (k + 1) d0
        = f ((List.scanl f b l).getD k d0) (l.getD k da) := by
  intro l
  induction l with
  | nil => intro b k hk; simp at hk
  | cons x l ih =>
    intro b k hk
    rw [List.scanl_cons]
    cases k with
    | zero =>
      simp [scanl_getD_zero]
    | succ k =>
      simp only [List.singleton_append, List.getD_cons_succ]
      rw [List.length_cons] at hk
      exact ih (f b x) k (by omega)

theorem scanl_getD_last (f : β → α → β) (d0 : β) :
    ∀ (l : List α) (b : β),
      (List.scanl f b l).getD l.length d0 = l.foldl f b := by
  intro l
  induction l with
  | nil => intro b; rfl
  | cons x l ih =>
    intro b
    rw [List.scanl_cons, List.length_cons]
    simp only [List.singleton_append, List.getD_cons_succ]
    exact ih (f b x)

/-- The ledger outcome does not depend on the driver's behaviour at skipped
invoices: any two drivers that agree on the non-skipped invoices produce the
same final ledger. -/
theorem batchRun_driver_congr (rl : ℕ) (plan : List PInvoice) (prog : Progress)
    (d d₂ : PInvoice → ℕ → Bool × String)
    (h : ∀ inv, invKey inv ∉ completedKeys prog → d inv = d₂ inv) :
    batchRun d rl plan prog = batchRun d₂ rl plan prog := by
  unfold batchRun
  have hgen : ∀ (l : List PInvoice) (p : Progress), (∀ inv ∈ l, d inv = d₂ inv) →
      l.foldl (stepInvoice d rl) p = l.foldl (stepInvoice d₂ rl) p := by
    intro l
    induction l with
    | nil => intro p _; rfl
    | cons i l ih =>
      intro p hl
      rw [List.foldl_cons, List.foldl_cons]
      have hi : d i = d₂ i := hl i (List.mem_cons_self i l)
      rw [show stepInvoice d rl p i = stepInvoice d₂ rl p i by
        unfold stepInvoice; rw [hi]]
      exact ih _ (fun x hx => hl x (List.mem_cons_of_mem i hx))
  refine hgen _ _ ?_
  intro inv hinv
  unfold remainingInvs at hinv
  rw [List.mem_filter] at hinv
  exact h inv (by simpa using hinv.2)

/-! ### Refinement: the source search equals its spec-worded rendering -/

theorem ltBestB_of_lt {s1 s2 : ℚ} {b : Option (List (ℕ × ℚ) × ℚ)}
    (h : s1 < s2) (hb : ltBestB s2 b = true) : ltBestB s1 b = true := by
  cases b with
  | none => rfl
  | some q =>
    simp only [ltBestB, decide_eq_true_eq] at hb ⊢
    exact lt_trans h hb

theorem foldl_pickStep_char :
    ∀ (n : ℕ) (X : List (List (ℕ × ℚ))) (c : List (ℕ × ℚ)), X.length ≤ n →
      X.foldl pickStep (some c)
        = match pickMin (X.filter (fun x => decide (sumSnd x < sumSnd c))) with
          | none => some c
          | some m => some m := by
  intro n
  induction n with
  | zero =>
    intro X c hX
    have hX0 : X = [] := List.length_eq_zero.mp (Nat.le_zero.mp hX)
    subst hX0
    simp [pickMin]
  | succ n ih =>
    intro X c hX
    cases X with
    | nil => simp [pickMin]
    | cons x X' =>
      rw [List.length_cons] at hX
      rw [List.foldl_cons]
      by_cases hlt : sumSnd x < sumSnd c
      · have hstep : pickStep (some c) x = some x := by simp [pickStep, hlt]
        rw [hstep, ih X' x (by omega)]
        have hfil : (x :: X').filter (fun y => decide (sumSnd y < sumSnd c))
            = x :: X'.filter (fun y => decide (sumSnd y < sumSnd c)) := by
          simp [List.filter_cons, hlt]
        rw [hfil]
        have hpm : pickMin (x :: X'.filter (fun y => decide (sumSnd y < sumSnd c)))
            = (X'.filter (fun y => decide (sumSnd y < sumSnd c))).foldl pickStep (some x) := by
          simp [pickMin, List.foldl_cons, pickStep]
        rw [hpm, ih _ x (le_trans (List.length_filter_le _ _) (by omega))]
        have hff : (X'.filter (fun y => decide (sumSnd y < sumSnd c))).filter
              (fun y => decide (sumSnd y < sumSnd x))
            = X'.filter (fun y => decide (sumSnd y < sumSnd x)) := by
          rw [List.filter_filter]
          refine List.filter_congr ?_
          intro a _
          by_cases ha : sumSnd a < sumSnd x
          · simp [ha, lt_trans ha hlt]
          · simp [ha]
        rw [hff]
        cases pickMin (X'.filter (fun y => decide (sumSnd y < sumSnd x))) <;> rfl
      · have hstep : pickStep (some c) x = some c := by simp [pickStep, hlt]
        rw [hstep, ih X' c (by omega)]
        have hfil : (x :: X').filter (fun y => decide (sumSnd y < sumSnd c))
            = X'.filter (fun y => decide (sumSnd y < sumSnd c)) := by
          simp [List.filter_cons, hlt]
        rw [hfil]

theorem foldl_comboStep_char (target : ℚ) :
    ∀ (L : List (List (ℕ × ℚ))) (best : Option (List (ℕ × ℚ) × ℚ)) (fl : Bool),
      L.foldl (comboStep target) (best, fl)
        = (mergeB best (pickMin (candCombos target best L)),
           fl || !(candCombos target best L).isEmpty) := by
  intro L
  induction L with
  | nil => intro best fl; simp [candCombos, pickMin, mergeB]
  | cons c L ih =>
    intro best fl
    rw [List.foldl_cons]
    by_cases hcond : target ≤ sumSnd c ∧ ltBestB (sumSnd c) best = true
    · have hstep : comboStep target (best, fl) c = (some (c, sumSnd c), true) := by
        simp only [comboStep]
        rw [if_pos hcond]
      rw [hstep, ih]
      have hcand : candCombos target best (c :: L) = c :: candCombos target best L := by
        simp [candCombos, List.filter_cons, hcond.1, hcond.2]
      rw [hcand]
      have hCL : candCombos target (some (c, sumSnd c)) L
          = (candCombos target best L).filter (fun y => decide (sumSnd y < sumSnd c)) := by
        unfold candCombos
        rw [List.filter_filter]
        refine List.filter_congr ?_
        intro a _
        by_cases h1 : sumSnd a < sumSnd c
        · have h2 := ltBestB_of_lt h1 hcond.2
          simp [show ltBestB (sumSnd a) (some (c, sumSnd c)) = decide (sumSnd a < sumSnd c)
            from rfl, h1, h2]
        · simp [show ltBestB (sumSnd a) (some (c, sumSnd c)) = decide (sumSnd a < sumSnd c)
            from rfl, h1]
      have hbest : mergeB (some (c, sumSnd c))
            (pickMin (candCombos target (some (c, sumSnd c)) L))
          = mergeB best (pickMin (c :: candCombos target best L)) := by
        rw [hCL]
        have hpm : pickMin (c :: candCombos target best L)
            = (candCombos target best L).foldl pickStep (some c) := by
          simp [pickMin, List.foldl_cons, pickStep]
        rw [hpm, foldl_pickStep_char (candCombos target best L).length _ c (le_refl _)]
        cases pickMin ((candCombos target best L).filter
            (fun y => decide (sumSnd y < sumSnd c))) with
        | none => simp [mergeB]
        | some m => simp [mergeB]
      rw [hbest]
      simp
    · have hstep : comboStep target (best, fl) c = (best, fl) := by
        simp only [comboStep]
        rw [if_neg hcond]
      rw [hstep, ih]
      have hcand : candCombos target best (c :: L) = candCombos target best L := by
        simp only [candCombos, List.filter_cons]
        by_cases h1 : target ≤ sumSnd c
        · have h2 : ltBestB (sumSnd c) best = false := by
            cases hb : ltBestB (sumSnd c) best
            · rfl
            · exact absurd ⟨h1, hb⟩ hcond
          simp [h1, h2]
        · simp [h1]
      rw [hcand]

theorem searchSizes_eq_spec (awi : List (ℕ × ℚ)) (target : ℚ)
    (hs : (awi.map Prod.snd).Pairwise (fun a b => b ≤ a)) :
    ∀ (sizes : List ℕ) (best : Option (List (ℕ × ℚ) × ℚ)),
      searchSizes awi (awi.map Prod.snd) target sizes best
        = specSearchSizes awi target sizes best := by
  have hsort : sortDescQ (awi.map Prod.snd) = awi.map Prod.snd :=
    stableSort_eq_of_sorted (fun x => x) _ hs
  intro sizes
  induction sizes with
  | nil => intro best; rfl
  | cons k rest ih =>
    intro best
    unfold searchSizes specSearchSizes
    have hkl : kLargest (awi.map Prod.snd) k = (awi.map Prod.snd).take k := by
      rw [kLargest, hsort]
    have hks : kSmallest (awi.map Prod.snd) k
        = (awi.map Prod.snd).drop ((awi.map Prod.snd).length - k) := by
      rw [kSmallest, hsort]
    rw [hkl, hks]
    by_cases h1 : ((awi.map Prod.snd).take k).sum < target
    · rw [if_pos h1, if_pos h1]
      exact ih best
    · rw [if_neg h1, if_neg h1]
      by_cases h2 : geBestB (((awi.map Prod.snd).drop
          ((awi.map Prod.snd).length - k)).sum) best = true
      · rw [if_pos h2, if_pos h2]
        exact ih best
      · rw [if_neg h2, if_neg h2]
        rw [foldl_comboStep_char target (combosFrom awi k) best false]
        simp only [Bool.false_or]
        refine if_congr (and_congr_left' ?_) rfl (ih _)
        cases candCombos target best (combosFrom awi k) <;> simp

/-- Theorem: `find_best_combo` coincides with the spec-worded search on descending
pools. -/
theorem find_best_combo_eq_spec (awi : List (ℕ × ℚ)) (target : ℚ) (max_size : ℕ)
    (hs : (awi.map Prod.snd).Pairwise (fun a b => b ≤ a)) :
    find_best_combo awi target max_size = findBestComboSpec awi target max_size := by
  exact congrArg (Option.map Prod.fst) (searchSizes_eq_spec awi target hs _ _)

/-! ### The claims -/

/-- C1: for every list of input records and positive target and max size,
each eligible record of an owner is accounted for exactly once across that
owner's invoices and leftover entry (the identifier multisets coincide, so
nothing is duplicated or omitted and ineligible records appear nowhere),
and each owner has at most one leftover entry, holding only that owner's
eligible records. -/
theorem claim_C1_partition (orders : List Order) (target : ℚ) (max_size : ℕ)
    (ht : 0 < target) (hm : 0 < max_size) :
    (∀ g, List.Perm
      ((((optimize orders target max_size).invoices.filter
          (fun i => decide (i.org_id = g))).flatMap (fun i => i.order_ids))
        ++ (leftoverFor (optimize orders target max_size) g).map (fun o => o.orderId))
      ((orgPool orders g).map (fun o => o.orderId)))
    ∧ ((optimize orders target max_size).leftover.map Prod.fst).Nodup
    ∧ (∀ e ∈ (optimize orders target max_size).leftover, ∀ o ∈ e.2,
        o ∈ orders ∧ o.canHk = true ∧ o.orgId = e.1) :=
  ⟨fun g => optimize_partition orders target max_size g,
   optimize_leftover_keys_nodup orders target max_size,
   optimize_leftover_mem orders target max_size⟩

theorem claim_C1_partition_witness :
    (0:ℚ) < 100 ∧ ((optimize exampleOrders 100 3).leftover.map Prod.fst).Nodup :=
  ⟨by norm_num,
   (claim_C1_partition exampleOrders 100 3 (by norm_num) (by norm_num)).2.1⟩

/-- C2: every invoice of a plan has total equal to the sum of its per-record
amounts, draws its records only from eligible input records of its own owner,
has at most `max_size` records, and totals at least `target`. -/
theorem claim_C2_invariants (orders : List Order) (target : ℚ) (max_size : ℕ) :
    ∀ inv ∈ (optimize orders target max_size).invoices,
      inv.total = inv.amounts.sum
      ∧ (∀ oid ∈ inv.order_ids, ∃ o, o ∈ orders ∧ o.canHk = true
          ∧ o.orgId = inv.org_id ∧ o.orderId = oid)
      ∧ inv.order_ids.length ≤ max_size
      ∧ target ≤ inv.total := by
  intro inv hinv
  rw [optimize_eq] at hinv
  simp only [List.mem_flatMap] at hinv
  obtain ⟨g, hg, hinv⟩ := hinv
  obtain ⟨c, rfl, h2, hm, ht, hmem⟩ := orgResult_inv_spec hinv
  refine ⟨?_, ?_, ?_, ?_⟩
  · show sumSnd c = (((c.map Prod.fst)).map
      (fun i => ((orgPool orders g).getD i default).ivcAmount)).sum
    rw [List.map_map]
    unfold sumSnd
    congr 1
    refine (List.map_congr_left ?_).symm
    intro p hp
    exact ((mem_availOf (hmem p hp)).2).symm
  · intro oid hoid
    simp only [mkInvoice, List.map_map, List.mem_map] at hoid
    obtain ⟨p, hp, rfl⟩ := hoid
    have h3 := mem_availOf (hmem p hp)
    have h4 : (orgPool orders g).getD p.1 default ∈ orgPool orders g := by
      rw [List.getD_eq_getElem _ default h3.1]
      exact List.getElem_mem h3.1
    have h5 := mem_orgPool h4
    exact ⟨_, h5.1, h5.2.1, by simpa [mkInvoice] using h5.2.2, rfl⟩
  · simpa [mkInvoice] using hm
  · exact ht

theorem claim_C2_invariants_witness :
    (100:ℚ) ≤ (Invoice.mk 1 "" ["B", "D"] [60, 40] 100).total := by
  have hmem : (Invoice.mk 1 "" ["B", "D"] [60, 40] 100)
      ∈ (optimize exampleOrders 100 3).invoices := by
    norm_num [exampleOrders, optimize, optStep, orgResult, orgKeys, orgPool, orgTotal,
      sortedOrgs, hkOrders, availOf, sortPairsDesc, stableSort, insSorted, mergeLoop,
      find_best_combo, searchSizes, comboStep, combosFrom, sumSnd, ltBestB, geBestB,
      bestLtB, mkInvoice, List.range', List.range_succ]
  exact (claim_C2_invariants exampleOrders 100 3 _ hmem).2.2.2

/-- C3: on a pool of amounts sorted descending the source search is exactly
the spec-worded one — sizes `2..min(max_group_size, n)` in increasing order,
skipping a size whose `k` largest amounts sum below target or whose `k`
smallest amounts already meet the best total, keeping the (first) combination
with the smallest total that still reaches target, a later size replacing the
best only on strictly smaller total, and stopping as soon as a size yields a
best total strictly below `1.10 * target`. -/
theorem claim_C3_search (awi : List (ℕ × ℚ)) (target : ℚ) (max_size : ℕ)
    (hs : (awi.map Prod.snd).Pairwise (fun a b => b ≤ a)) :
    find_best_combo awi target max_size = findBestComboSpec awi target max_size :=
  find_best_combo_eq_spec awi target max_size hs

theorem claim_C3_search_witness :
    find_best_combo [(0, 70), (1, 60), (2, 50), (3, 40)] 100 3
      = findBestComboSpec [(0, 70), (1, 60), (2, 50), (3, 40)] 100 3 :=
  claim_C3_search [(0, 70), (1, 60), (2, 50), (3, 40)] 100 3
    (by norm_num [List.pairwise_cons])

/-- C4 as stated is false: with two owner groups of equal total, the planner
does not process the smaller owner id first — it keeps the input's
first-appearance order.  On `tieOrders` (owner 2 first, equal totals) the
processing order is `[2, 1]`, violating the claimed tie-break. -/
theorem claim_C4_counterexample :
    ¬ (sortedOrgs tieOrders).Pairwise (fun a b =>
        orgTotal tieOrders b < orgTotal tieOrders a
        ∨ (orgTotal tieOrders a = orgTotal tieOrders b ∧ a < b)) := by
  have h : sortedOrgs tieOrders = [2, 1] := by
    norm_num [sortedOrgs, orgKeys, hkOrders, tieOrders, stableSort, insSorted,
      orgTotal, orgPool]
  rw [h]
  intro hp
  have h1 := (List.pairwise_cons.mp hp).1 1 (List.mem_singleton.mpr rfl)
  rcases h1 with h1 | ⟨_, h3⟩
  · norm_num [orgTotal, orgPool, hkOrders, tieOrders] at h1
  · norm_num at h3

/-- C4 amended: owner groups are processed in descending order of group
total, with ties broken by the owner's first appearance in the input (the
stable sort keeps insertion order), not by owner id. -/
theorem claim_C4_amended (orders : List Order) :
    List.Perm (sortedOrgs orders) (orgKeys orders)
    ∧ (sortedOrgs orders).Pairwise (fun a b =>
        orgTotal orders b < orgTotal orders a
        ∨ (orgTotal orders a = orgTotal orders b
            ∧ (orgKeys orders).indexOf a < (orgKeys orders).indexOf b)) := by
  refine ⟨sortedOrgs_perm orders, ?_⟩
  unfold sortedOrgs
  exact stableSort_pairwise (orgTotal orders) _ _
    (nodup_pairwise_indexOf _ (orgKeys_nodup orders))

/-- C5 as stated is false: at the malformed input `target = -5` the planner
does not fail — it returns an ordinary Plan (all records leftover here). -/
theorem claim_C5_counterexample :
    optimize soloOrders (-5) 3
      = { invoices := [], leftover := [(1, soloOrders)] } := by
  norm_num [soloOrders, optimize, optStep, orgResult, orgKeys, orgPool, orgTotal,
    sortedOrgs, hkOrders, availOf, sortPairsDesc, stableSort, insSorted, mergeLoop,
    find_best_combo, searchSizes, comboStep, combosFrom, sumSnd, ltBestB, geBestB,
    bestLtB, mkInvoice, List.range', List.range_succ]

/-- C5 amended: the planner has no failure mode at all — it performs no input
validation, and even for non-positive target or max size it returns a Plan in
which every eligible record is still accounted for exactly once. -/
theorem claim_C5_amended (orders : List Order) (target : ℚ) (max_size : ℕ)
    (h : target ≤ 0 ∨ max_size = 0) :
    ∀ g, List.Perm
      ((((optimize orders target max_size).invoices.filter
          (fun i => decide (i.org_id = g))).flatMap (fun i => i.order_ids))
        ++ (leftoverFor (optimize orders target max_size) g).map (fun o => o.orderId))
      ((orgPool orders g).map (fun o => o.orderId)) :=
  fun g => optimize_partition orders target max_size g

theorem claim_C5_amended_witness :
    List.Perm
      ((((optimize soloOrders (-5) 3).invoices.filter
          (fun i => decide (i.org_id = 1))).flatMap (fun i => i.order_ids))
        ++ (leftoverFor (optimize soloOrders (-5) 3) 1).map (fun o => o.orderId))
      ((orgPool soloOrders 1).map (fun o => o.orderId)) :=
  claim_C5_amended soloOrders (-5) 3 (Or.inl (by norm_num)) 1

/-- C6 as stated is false: with a plan containing the same invoice twice and
an always-succeeding driver, one run appends two completed entries with the
same identifier set, because the completed-key set is computed once at
start and never refreshed during the run. -/
theorem claim_C6_counterexample :
    ¬ (completedKeys (batchRun driverOK 1 [invAB, invAB] ledger0)).Nodup := by
  have h : completedKeys (batchRun driverOK 1 [invAB, invAB] ledger0)
      = [sortStrings ["B", "A"], sortStrings ["B", "A"]] := rfl
  rw [h]
  simp [List.nodup_cons]

/-- C6 amended: provided the starting completed entries have pairwise
distinct identifier sets and the plan's invoices have pairwise distinct
identifier sets, the executor skips exactly the invoices whose key is
already completed, never consults the driver for them, ends with
`completed` grown by exactly the newly succeeded invoices, and keeps the
completed identifier sets pairwise distinct. -/
theorem claim_C6_amended (plan : List PInvoice) (prog : Progress)
    (d : PInvoice → ℕ → Bool × String) (rl : ℕ)
    (h1 : (completedKeys prog).Nodup)
    (h2 : (plan.map invKey).Nodup) :
    (∀ inv ∈ plan, (inv ∈ remainingInvs plan prog ↔ invKey inv ∉ completedKeys prog))
    ∧ (∀ d₂ : PInvoice → ℕ → Bool × String,
        (∀ inv, invKey inv ∉ completedKeys prog → d inv = d₂ inv) →
        batchRun d rl plan prog = batchRun d₂ rl plan prog)
    ∧ (batchRun d rl plan prog).completed.length
        = prog.completed.length
          + ((remainingInvs plan prog).filter
              (fun i => (runAttempts (d i) rl).1)).length
    ∧ (completedKeys (batchRun d rl plan prog)).Nodup := by
  have hfold := batchFold_eq d rl (remainingInvs plan prog) prog
  refine ⟨?_, ?_, ?_, ?_⟩
  · intro inv hinv
    unfold remainingInvs
    rw [List.mem_filter]
    constructor
    · intro h; simpa using h.2
    · intro h; exact ⟨hinv, by simpa using h⟩
  · intro d₂ hd
    exact batchRun_driver_congr rl plan prog d d₂ hd
  · show ((remainingInvs plan prog).foldl (stepInvoice d rl) prog).completed.length = _
    rw [hfold]
    simp
  · show (completedKeys ((remainingInvs plan prog).foldl (stepInvoice d rl) prog)).Nodup
    rw [hfold]
    unfold completedKeys
    simp only [List.map_append, List.map_map]
    have hkey : ((remainingInvs plan prog).filter (fun i => (runAttempts (d i) rl).1)).map
          (recKey ∘ (fun i => mkRec i (runAttempts (d i) rl).2.1))
        = ((remainingInvs plan prog).filter
            (fun i => (runAttempts (d i) rl).1)).map invKey :=
      List.map_congr_left (fun i _ => rfl)
    rw [hkey, List.nodup_append]
    refine ⟨h1, ?_, ?_⟩
    · have hsub1 : List.Sublist
          ((remainingInvs plan prog).filter (fun i => (runAttempts (d i) rl).1))
          (remainingInvs plan prog) := List.filter_sublist _
      have hsub2 : List.Sublist (remainingInvs plan prog) plan := List.filter_sublist _
      exact h2.sublist ((hsub1.trans hsub2).map invKey)
    · intro k hk hk2
      rw [List.mem_map] at hk2
      obtain ⟨i, hi, rfl⟩ := hk2
      have hi2 : i ∈ remainingInvs plan prog := (List.filter_sublist _).mem hi
      unfold remainingInvs at hi2
      rw [List.mem_filter] at hi2
      have hnot : invKey i ∉ completedKeys prog := by simpa using hi2.2
      exact hnot hk

theorem claim_C6_amended_witness :
    (batchRun driverOK 1 [invAB] ledger0).completed.length = 1 := by
  have h := (claim_C6_amended [invAB] ledger0 driverOK 1
    (by decide) (by decide)).2.2.1
  rw [h]
  decide

/-- C7: a non-skipped invoice whose every attempt fails is attempted exactly
`retry_limit` times and recorded once in `failed`, never in `completed`; a
successful attempt ends the retry loop immediately; each processed invoice
appends exactly one record to exactly one of the two lists; and the persisted
ledger sequence advances by exactly one invoice at a time, ending in the
final ledger. -/
theorem claim_C7_retry (plan : List PInvoice) (prog : Progress)
    (d : PInvoice → ℕ → Bool × String) (rl : ℕ) :
    (∀ (p : Progress) (inv : PInvoice),
      (∀ a, 1 ≤ a → a ≤ rl → (d inv a).1 = false) →
      stepInvoice d rl p inv
          = { completed := p.completed,
              failed := p.failed ++ [mkRec inv (runAttempts (d inv) rl).2.1],
              skipped := p.skipped }
        ∧ (runAttempts (d inv) rl).2.2 = rl)
    ∧ (∀ (inv : PInvoice) (j : ℕ), 1 ≤ j → j ≤ rl → (d inv j).1 = true →
        (∀ b, 1 ≤ b → b < j → (d inv b).1 = false) →
        runAttempts (d inv) rl = (true, (d inv j).2, j))
    ∧ (∀ (p : Progress) (inv : PInvoice),
        stepInvoice d rl p inv
            = { completed := p.completed ++ [mkRec inv (runAttempts (d inv) rl).2.1],
                failed := p.failed, skipped := p.skipped }
          ∨ stepInvoice d rl p inv
            = { completed := p.completed,
                failed := p.failed ++ [mkRec inv (runAttempts (d inv) rl).2.1],
                skipped := p.skipped })
    ∧ (batchSnapshots d rl plan prog).length = (remainingInvs plan prog).length + 1
    ∧ (∀ k, k < (remainingInvs plan prog).length →
        (batchSnapshots d rl plan prog).getD (k + 1) default
          = stepInvoice d rl ((batchSnapshots d rl plan prog).getD k default)
              ((remainingInvs plan prog).getD k default))
    ∧ (batchSnapshots d rl plan prog).getD (remainingInvs plan prog).length default
        = batchRun d rl plan prog := by
  refine ⟨?_, ?_, ?_, ?_, ?_, ?_⟩
  · intro p inv hfail
    obtain ⟨hs1, hs2⟩ := runAttempts_all_fail (d inv) rl hfail
    constructor
    · simp only [stepInvoice]
      rw [if_neg (by simp [hs1])]
    · exact hs2
  · intro inv j h1 h2 h3 h4
    exact runAttempts_first_success (d inv) rl j h1 h2 h3 h4
  · intro p inv
    simp only [stepInvoice]
    by_cases h : (runAttempts (d inv) rl).1
    · exact Or.inl (by rw [if_pos h])
    · exact Or.inr (by rw [if_neg h])
  · unfold batchSnapshots
    rw [List.length_scanl]
  · intro k hk
    unfold batchSnapshots
    exact scanl_getD_succ _ default default _ prog k hk
  · unfold batchSnapshots batchRun
    exact scanl_getD_last _ default _ prog

theorem claim_C7_retry_witness :
    stepInvoice driverFail 2 ledger0 invAB
        = { completed := [],
            failed := [mkRec invAB (runAttempts (driverFail invAB) 2).2.1],
            skipped := [] }
      ∧ (runAttempts (driverFail invAB) 2).2.2 = 2 := by
  have h := (claim_C7_retry [invAB] ledger0 driverFail 2).1 ledger0 invAB
    (fun a _ _ => rfl)
  exact h

/-- C8: on `[70, 60, 50, 40]` with target 100 and max size 3 the planner
produces exactly the invoices `{60, 40}` (total 100) then `{70, 50}`
(total 120) and no leftover. -/
theorem claim_C8_example :
    optimize exampleOrders 100 3
      = { invoices :=
            [{ org_id := 1, org_name := "", order_ids := ["B", "D"],
               amounts := [60, 40], total := 100 },
             { org_id := 1, org_name := "", order_ids := ["A", "C"],
               amounts := [70, 50], total := 120 }],
          leftover := [] } := by
  norm_num [exampleOrders, optimize, optStep, orgResult, orgKeys, orgPool, orgTotal,
    sortedOrgs, hkOrders, availOf, sortPairsDesc, stableSort, insSorted, mergeLoop,
    find_best_combo, searchSizes, comboStep, combosFrom, sumSnd, ltBestB, geBestB,
    bestLtB, mkInvoice, List.range', List.range_succ]

/-- C9: every produced invoice has at least two records — a single record is
never emitted alone, the combination search starting at size 2. -/
theorem claim_C9_min_two (orders : List Order) (target : ℚ) (max_size : ℕ) :
    ∀ inv ∈ (optimize orders target max_size).invoices, 2 ≤ inv.order_ids.length := by
  intro inv hinv
  rw [optimize_eq] at hinv
  simp only [List.mem_flatMap] at hinv
  obtain ⟨g, hg, hinv⟩ := hinv
  obtain ⟨c, rfl, h2, _, _, _⟩ := orgResult_inv_spec hinv
  simpa [mkInvoice] using h2

theorem claim_C9_min_two_witness :
    2 ≤ (Invoice.mk 1 "" ["A", "B"] [150, 30] 180).order_ids.length := by
  have hmem : (Invoice.mk 1 "" ["A", "B"] [150, 30] 180)
      ∈ (optimize bigOrders 100 3).invoices := by
    norm_num [bigOrders, optimize, optStep, orgResult, orgKeys, orgPool, orgTotal,
      sortedOrgs, hkOrders, availOf, sortPairsDesc, stableSort, insSorted, mergeLoop,
      find_best_combo, searchSizes, comboStep, combosFrom, sumSnd, ltBestB, geBestB,
      bestLtB, mkInvoice, List.range', List.range_succ]
  exact claim_C9_min_two bigOrders 100 3 _ hmem

/-- C10: a run leaves `skipped` untouched, only appends to `completed` and
`failed`, and appends exactly one record per non-skipped invoice — bypassed
invoices produce no ledger entry at all. -/
theorem claim_C10_frame (plan : List PInvoice) (prog : Progress)
    (d : PInvoice → ℕ → Bool × String) (rl : ℕ) :
    (batchRun d rl plan prog).skipped = prog.skipped
    ∧ (batchRun d rl plan prog).completed
        = prog.completed ++ ((remainingInvs plan prog).filter
            (fun i => (runAttempts (d i) rl).1)).map
              (fun i => mkRec i (runAttempts (d i) rl).2.1)
    ∧ (batchRun d rl plan prog).failed
        = prog.failed ++ ((remainingInvs plan prog).filter
            (fun i => !(runAttempts (d i) rl).1)).map
              (fun i => mkRec i (runAttempts (d i) rl).2.1)
    ∧ ((remainingInvs plan prog).filter (fun i => (runAttempts (d i) rl).1)).length
        + ((remainingInvs plan prog).filter
            (fun i => !(runAttempts (d i) rl).1)).length
        = (remainingInvs plan prog).length := by
  have h := batchFold_eq d rl (remainingInvs plan prog) prog
  unfold batchRun
  rw [h]
  refine ⟨rfl, rfl, rfl, ?_⟩
  simpa using (List.filter_append_perm (fun i => (runAttempts (d i) rl).1)
    (remainingInvs plan prog)).length_eq

end JdMerge
